import Mathlib

/-
  Verification of the InMemoryDB key-value store (Go) against its
  natural-language specification.

  Shallow embedding conventions:
  * Go strings are modeled as `List Char` (`Str`), so that the AOF line
    format and `strings.Split(line, " ")` can be modeled exactly.
  * The Go map `dbStore` is modeled as an association list with unique keys;
    `store` replaces the binding, `delete` removes it, `load` looks it up.
    (Go map iteration order is irrelevant to every claim considered.)
  * `container/heap` (Go standard library, not repository code) is modeled by
    its documented priority-queue contract: the heap is kept as a list sorted
    ascending by expiry, `Push` is ordered insertion, `Peak` is the head and
    `Pop` removes the head, i.e. a minimal element.
  * `time.Now().Unix()` is passed explicitly as a `now : Int` parameter; the
    calls inside one façade operation happen under the lock within the same
    modeled instant.
  * int64 arithmetic is modeled with `Int` (no operation here can overflow
    64 bits on the inputs the service accepts).
  * The AOF file is modeled as the list of appended lines; `appendToAof`
    writes `line + "\n"` and the startup scanner splits on newlines, so the
    two views coincide for lines that contain no newline.
-/

namespace InMemoryDB

/-- Go strings, modeled as lists of characters. -/
abbrev Str := List Char

/-- `databaseEntry` from database_service.go: a value plus an optional
absolute expiry (`ttl *int64`, absolute Unix seconds). -/
structure databaseEntry where
  value : Str
  ttl : Option Int
deriving DecidableEq, Repr

/-- The Go map `dbStore  map[string]databaseEntry`, as an association list
with at most one binding per key. -/
abbrev DbStore := List (Str × databaseEntry)

/-- Go map read `i.database[key]` (the `load` helper). -/
def dbLoad : DbStore → Str → Option databaseEntry
  | [], _ => none
  | (k1, e) :: rest, k => if k1 = k then some e else dbLoad rest k

/-- Go map delete `delete(i.database, key)` (the `delete` helper). -/
def dbDelete : DbStore → Str → DbStore
  | [], _ => []
  | (k1, e) :: rest, k =>
    if k1 = k then dbDelete rest k else (k1, e) :: dbDelete rest k

/-- Go map write `i.database[key] = d` (the `store` helper): replace any
existing binding for the key. -/
def dbSet (s : DbStore) (k : Str) (e : databaseEntry) : DbStore :=
  (k, e) :: dbDelete s k

/-- `ttlHeapData` from ttl_heap.go: a (key, absolute-expiry) pair. -/
structure ttlHeapData where
  key : Str
  ttl : Int
deriving DecidableEq, Repr

/-- `heap.Push` on the `ttlHeap`: the heap is modeled as a list sorted
ascending by `ttl`; push is ordered insertion (container/heap contract). -/
def heapPush : List ttlHeapData → ttlHeapData → List ttlHeapData
  | [], x => [x]
  | y :: rest, x =>
    if x.ttl < y.ttl then x :: y :: rest else y :: heapPush rest x

/-- The min-heap ordering invariant in the sorted-list model. -/
def HeapSorted (h : List ttlHeapData) : Prop :=
  List.Pairwise (fun p q : ttlHeapData => p.ttl ≤ q.ttl) h

instance (h : List ttlHeapData) : Decidable (HeapSorted h) :=
  inferInstanceAs
    (Decidable (List.Pairwise (fun p q : ttlHeapData => p.ttl ≤ q.ttl) h))

/-- Fuelled digit emitter (structural recursion so the kernel can evaluate
it): peels decimal digits of `n` onto `acc`, least significant first, so the
result is most significant first. -/
def natDigitsGo : Nat → Nat → Str → Str
  | 0, _, acc => acc
  | _ + 1, 0, acc => acc
  | fuel + 1, n + 1, acc =>
    natDigitsGo fuel ((n + 1) / 10) (Nat.digitChar ((n + 1) % 10) :: acc)

/-- Decimal digits of a natural number, most significant first, as written
by Go `fmt.Sprintf` with `%v`. -/
def natDigits (n : Nat) : Str :=
  if n = 0 then ['0'] else natDigitsGo n n []

/-- Go `fmt.Sprintf` of an int64 with `%v` (decimal, `-` sign). -/
def formatInt (n : Int) : Str :=
  if n < 0 then '-' :: natDigits (-n).toNat else natDigits n.toNat

/-- Value of one decimal digit character, if it is one. -/
def charDigit (c : Char) : Option Nat :=
  if 48 ≤ c.toNat ∧ c.toNat ≤ 57 then some (c.toNat - 48) else none

/-- Accumulating decimal parse of a digit string (helper for Atoi). -/
def goNat (acc : Nat) : Str → Option Nat
  | [] => some acc
  | c :: r =>
    match charDigit c with
    | some d => goNat (acc * 10 + d) r
    | none => none

/-- Parse a non-empty all-digit string. -/
def parseDigits (s : Str) : Option Nat :=
  if s.isEmpty then none else goNat 0 s

/-- Go `strconv.Atoi`: optional sign, then one or more decimal digits
(overflow cannot occur on the inputs considered here). -/
def parseAtoi (s : Str) : Option Int :=
  match s with
  | [] => none
  | c :: rest =>
    if c = '-' then (parseDigits rest).map (fun m => -(m : Int))
    else if c = '+' then (parseDigits rest).map (fun m => (m : Int))
    else (parseDigits (c :: rest)).map (fun m => (m : Int))

/-- The literal `PUT`. -/
def strPUT : Str := ['P', 'U', 'T']

/-- The literal `DELETE`. -/
def strDELETE : Str := ['D', 'E', 'L', 'E', 'T', 'E']

/-- The literal `-1`. -/
def strNeg1 : Str := ['-', '1']

/-- The AOF record `PUT <key> <value> <ttl-or--1>` written by Create and
Put (`fmt.Sprintf` with the relative ttl supplied at write time, `-1` when
absent). -/
def aofPutLine (k v : Str) (t : Option Int) : Str :=
  strPUT ++ ' ' :: (k ++ ' ' :: (v ++ ' ' ::
    (match t with
     | some n => formatInt n
     | none => formatInt (-1))))

/-- The AOF record `DELETE <key>`. -/
def aofDeleteLine (k : Str) : Str :=
  strDELETE ++ ' ' :: k

/-- The in-memory database state: the store, the expiry index (min-heap) and
the sequence of AOF lines appended so far. -/
structure InMemoryDatabase where
  database : DbStore
  ttl : List ttlHeapData
  aof : List Str
deriving DecidableEq, Repr

/-- A freshly constructed database (NewInMemoryDatabase with no options). -/
def emptyDB : InMemoryDatabase := ⟨[], [], []⟩

/-- `Create` from database_service.go.  The freshly generated UUID is passed
in as `id` (the generator is an external source of randomness).  Returns
`(created, key, newState)`.  Note that the `PUT` AOF line is appended
unconditionally, while the store and the heap change only when the id was
not already present. -/
def Create (id v : Str) (ttlRel : Option Int) (now : Int)
    (db : InMemoryDatabase) : Bool × Str × InMemoryDatabase :=
  let loaded := (dbLoad db.database id).isSome
  match ttlRel with
  | some t =>
    let ttlAbs := t + now
    ⟨!loaded, id,
      (if loaded then db.database else dbSet db.database id ⟨v, some ttlAbs⟩),
      (if loaded then db.ttl else heapPush db.ttl ⟨id, ttlAbs⟩),
      db.aof ++ [aofPutLine id v (some t)]⟩
  | none =>
    ⟨!loaded, id,
      (if loaded then db.database else dbSet db.database id ⟨v, none⟩),
      db.ttl,
      db.aof ++ [aofPutLine id v none]⟩

/-- `Get` from database_service.go: the value and `true` when the key is
loaded and its ttl is nil or strictly greater than now, otherwise
`("", false)`. -/
def Get (key : Str) (now : Int) (db : InMemoryDatabase) : Str × Bool :=
  match dbLoad db.database key with
  | none => ([], false)
  | some e =>
    match e.ttl with
    | none => (e.value, true)
    | some x => if x > now then (e.value, true) else ([], false)

/-- `GetTTL` from database_service.go. -/
def GetTTL (key : Str) (now : Int) (db : InMemoryDatabase) :
    Option Int × Bool :=
  match dbLoad db.database key with
  | none => (none, false)
  | some e =>
    match e.ttl with
    | none => (none, true)
    | some x => if x ≤ now then (none, false) else (some (x - now), true)

/-- `Put` from database_service.go.  Appends the AOF line, overwrites the
entry (absolute expiry `ttl + now` when a relative ttl is supplied, none
otherwise), pushes onto the heap when a ttl is supplied, and returns whether
the key was loaded before the write. -/
def Put (key v : Str) (ttlRel : Option Int) (now : Int)
    (db : InMemoryDatabase) : Bool × InMemoryDatabase :=
  let loaded := (dbLoad db.database key).isSome
  match ttlRel with
  | some t =>
    ⟨loaded,
      dbSet db.database key ⟨v, some (t + now)⟩,
      heapPush db.ttl ⟨key, t + now⟩,
      db.aof ++ [aofPutLine key v (some t)]⟩
  | none =>
    ⟨loaded,
      dbSet db.database key ⟨v, none⟩,
      db.ttl,
      db.aof ++ [aofPutLine key v none]⟩

/-- `Delete` from database_service.go: appends the `DELETE` AOF line
unconditionally, removes the key, returns whether it was present. -/
def Delete (key : Str) (db : InMemoryDatabase) : Bool × InMemoryDatabase :=
  ⟨(dbLoad db.database key).isSome,
    dbDelete db.database key,
    db.ttl,
    db.aof ++ [aofDeleteLine key]⟩

/-- The drain phase of `ttlCleanup` (database_service.go lines 252-270),
run under the lock at instant `now`: while the heap is non-empty and the
earliest expiry has no time left, pop it; delete the key and append a
`DELETE` record only when the store still holds the key with exactly the
popped expiry.  Returns the final heap, store and AOF. -/
def ttlCleanupDrain (now : Int) :
    List ttlHeapData → DbStore → List Str →
    List ttlHeapData × DbStore × List Str
  | [], s, a => ([], s, a)
  | x :: rest, s, a =>
    if x.ttl - now > 0 then (x :: rest, s, a)
    else
      match dbLoad s x.key with
      | some e =>
        if e.ttl = some x.ttl then
          ttlCleanupDrain now rest (dbDelete s x.key)
            (a ++ [aofDeleteLine x.key])
        else ttlCleanupDrain now rest s a
      | none => ttlCleanupDrain now rest s a

/-- Go `strings.Split(line, " ")`: split on every single space, keeping
empty fields. -/
def splitOnSpace : Str → List Str
  | [] => [[]]
  | c :: rest =>
    if c = ' ' then [] :: splitOnSpace rest
    else
      match splitOnSpace rest with
      | [] => [[c]]
      | g :: gs => (c :: g) :: gs

/-- Replay of one AOF line by `WithInitialData` in AOF mode
(database_options.go lines 109-143): split on spaces; a well-formed `PUT`
stores the entry (ttl `-1` clears the expiry, any other parseable value is
kept as the absolute expiry); a well-formed `DELETE` removes the key; any
other line is skipped.  Only `db.store` and `db.delete` are invoked, so the
replay touches the store alone. -/
def replayLine (st : DbStore) (line : Str) : DbStore :=
  match splitOnSpace line with
  | cmd :: rest =>
    if cmd = strPUT then
      match rest with
      | [key, v, ts] =>
        if ts = strNeg1 then dbSet st key ⟨v, none⟩
        else
          match parseAtoi ts with
          | some n => dbSet st key ⟨v, some n⟩
          | none => st
      | _ => st
    else if cmd = strDELETE then
      match rest with
      | [key] => dbDelete st key
      | _ => st
    else st
  | [] => st

/-- Replay a whole AOF (list of lines) in order. -/
def replay (lines : List Str) (st : DbStore) : DbStore :=
  lines.foldl replayLine st

/-- Startup in AOF mode: a fresh database whose store is the replay of the
given lines.  The expiry index and AOF start empty, exactly as after
`NewInMemoryDatabase` plus the `WithInitialData` option with
`persistenceType = false`. -/
def withInitialDataAof (lines : List Str) : InMemoryDatabase :=
  ⟨replay lines [], [], []⟩

/-- Whether an AOF line is accepted (not skipped) by the replay loop. -/
def wellFormedAofLine (line : Str) : Bool :=
  match splitOnSpace line with
  | cmd :: rest =>
    if cmd = strPUT then
      match rest with
      | [_, _, ts] => decide (ts = strNeg1) || (parseAtoi ts).isSome
      | _ => false
    else if cmd = strDELETE then
      match rest with
      | [_] => true
      | _ => false
    else false
  | [] => false

/-- A mutation of the façade, with the instant at which it runs and (for
Create) the UUID the generator produced. -/
inductive Mutation where
  | create (id v : Str) (ttlRel : Option Int) (now : Int)
  | put (key v : Str) (ttlRel : Option Int) (now : Int)
  | del (key : Str)
deriving DecidableEq, Repr

/-- Apply one mutation to a database state. -/
def applyMutation (db : InMemoryDatabase) : Mutation → InMemoryDatabase
  | .create id v t now => (Create id v t now db).2.2
  | .put k v t now => (Put k v t now db).2
  | .del k => (Delete k db).2

/-- Run a sequence of mutations left to right. -/
def runMutations (s : List Mutation) (db : InMemoryDatabase) :
    InMemoryDatabase :=
  s.foldl applyMutation db

/-- The single AOF line each mutation appends. -/
def lineOf : Mutation → Str
  | .create id v t _ => aofPutLine id v t
  | .put k v t _ => aofPutLine k v t
  | .del k => aofDeleteLine k

/-- A string free of spaces (a single field in the space-separated AOF
grammar). -/
abbrev isToken (s : Str) : Prop := ∀ c ∈ s, c ≠ ' '

/-- A ttl argument is nonnegative when supplied (the HTTP layer validates
this). -/
def ttlNonneg : Option Int → Prop
  | some x => 0 ≤ x
  | none => True

instance (t : Option Int) : Decidable (ttlNonneg t) :=
  match t with
  | some x => (inferInstance : Decidable (0 ≤ x))
  | none => .isTrue trivial

/-- Validated inputs for a mutation, as the HTTP layer guarantees them:
keys and values are single tokens and a supplied ttl is nonnegative. -/
def mutOk : Mutation → Prop
  | .create id v t _ => isToken id ∧ isToken v ∧ ttlNonneg t
  | .put k v t _ => isToken k ∧ isToken v ∧ ttlNonneg t
  | .del k => isToken k

instance (m : Mutation) : Decidable (mutOk m) :=
  match m with
  | .create id v t _ =>
    (inferInstance : Decidable (isToken id ∧ isToken v ∧ ttlNonneg t))
  | .put k v t _ =>
    (inferInstance : Decidable (isToken k ∧ isToken v ∧ ttlNonneg t))
  | .del k => (inferInstance : Decidable (isToken k))

/-- A mutation does not collide: for a Create, the generated id is not yet
in the store. -/
def freshOk (db : InMemoryDatabase) : Mutation → Bool
  | .create id _ _ _ => (dbLoad db.database id).isNone
  | .put _ _ _ _ => true
  | .del _ => true

/-- The run of the sequence never sees a Create whose generated id collides
with a key already in the store. -/
def createsFresh (db : InMemoryDatabase) : List Mutation → Bool
  | [] => true
  | m :: rest => freshOk db m && createsFresh (applyMutation db m) rest

/-- The head predicate of the drain loop: an entry is drained while its
expiry has no time left at the drain instant (`timeLeft ≤ 0`). -/
def expiredPred (now : Int) (x : ttlHeapData) : Bool :=
  decide (x.ttl ≤ now)

/-- The prefix of heap entries the drain loop pops at instant `now`. -/
def poppedEntries (now : Int) (h : List ttlHeapData) : List ttlHeapData :=
  h.takeWhile (expiredPred now)

/-- Whether the drain loop at instant `now`, started on heap `h` and store
`s`, deletes key `k`: the store holds `k` with an expiry equal to the expiry
of some popped heap entry for `k`. -/
def drainDeletes (now : Int) (h : List ttlHeapData) (s : DbStore)
    (k : Str) : Bool :=
  match dbLoad s k with
  | none => false
  | some e =>
    (poppedEntries now h).any
      (fun x => decide (x.key = k) && decide (e.ttl = some x.ttl))

/-- An HTTP response: status code and body bytes. -/
structure HttpResponse where
  status : Nat
  body : Str
deriving DecidableEq, Repr

/-- The body `{}` written by the put, delete and publish handlers. -/
def emptyJson : Str := ['{', '}']

/-- The body written by `writeJSONError`: `json.NewEncoder(w).Encode` of the
one-field map, i.e. the envelope plus a trailing newline. -/
def errorEnvelope (msg : Str) : Str :=
  ['{', '"', 'e', 'r', 'r', 'o', 'r', '"', ':', '"'] ++ msg ++
    ['"', '}', '\n']

/-- Whether a body has the error-envelope shape produced by
`writeJSONError` for some message. -/
def isErrorEnvelope (b : Str) : Bool :=
  decide (13 ≤ b.length) &&
    decide (b.take 10 = ['{', '"', 'e', 'r', 'r', 'o', 'r', '"', ':', '"'])
    && decide (b.drop (b.length - 3) = ['"', '}', '\n'])

/-- `deleteHandler` from http_handler.go: forwards to `Delete`, answers 200
when the key existed and 404 otherwise, with body `{}` on both paths. -/
def deleteHandler (key : Str) (db : InMemoryDatabase) :
    HttpResponse × InMemoryDatabase :=
  let r := Delete key db
  (⟨if r.1 then 200 else 404, emptyJson⟩, r.2)

/-- `putHandler` from http_handler.go: an empty value fails the `required`
validation with a 400 error envelope (message text produced by the
validator library); otherwise it forwards to `Put` and answers 200 when the
key existed, 201 otherwise, with body `{}`. -/
def putHandler (key v : Str) (ttlRel : Option Int) (now : Int)
    (db : InMemoryDatabase) : HttpResponse × InMemoryDatabase :=
  if v = [] then
    (⟨400, errorEnvelope
      ("Validation errors when parsing put request".toList)⟩, db)
  else
    let r := Put key v ttlRel now db
    (⟨if r.1 then 200 else 201, emptyJson⟩, r.2)

/-- A subscriber mailbox: the buffered messages of one `chan string` of
capacity 10, oldest first (`make(chan string, 10)` in subscribeHandler). -/
abbrev Mailbox := List Str

/-- The broker's channel map `channel → []chan string`; a missing channel
reads as the empty (nil) slice, as for a Go map. -/
abbrev Broker := Str → List Mailbox

/-- The fan-out loop of `publishHandler`: for each mailbox of the channel,
a non-blocking send appends the message when fewer than 10 messages are
buffered and drops it otherwise; other channels are untouched. -/
def publish (b : Broker) (ch s : Str) : Broker :=
  fun ch1 =>
    if ch1 = ch then
      (b ch).map (fun mb => if mb.length < 10 then mb ++ [s] else mb)
    else b ch1

/-- `publishHandler` from http_handler.go: an empty message fails the
`required` validation with a 400 error envelope; otherwise fan out and
answer 200 with body `{}`, also when the channel has no subscribers. -/
def publishHandler (ch msg : Str) (b : Broker) : HttpResponse × Broker :=
  if msg = [] then
    (⟨400, errorEnvelope ("Message required for publish request".toList)⟩, b)
  else
    (⟨200, emptyJson⟩, publish b ch msg)

/-- Pointwise agreement of two stores up to the expiry clock: same keys,
same values, and expiries absent or present together. -/
def entryAgrees : Option databaseEntry → Option databaseEntry → Prop
  | none, none => True
  | some e1, some e2 => e1.value = e2.value ∧ e1.ttl.isSome = e2.ttl.isSome
  | _, _ => False

/-- Two stores agree (up to expiry clocks) at every key. -/
def StoresAgree (s1 s2 : DbStore) : Prop :=
  ∀ k, entryAgrees (dbLoad s1 k) (dbLoad s2 k)

/-! ### Association-list store lemmas -/

theorem dbLoad_dbDelete (s : DbStore) (k k1 : Str) :
    dbLoad (dbDelete s k) k1 = if k1 = k then none else dbLoad s k1 := by
  induction s with
  | nil => simp [dbDelete, dbLoad]
  | cons p rest ih =>
    obtain ⟨k2, e⟩ := p
    by_cases h2 : k2 = k <;> by_cases h3 : k2 = k1 <;> by_cases h1 : k1 = k <;>
      simp_all [dbDelete, dbLoad]

theorem dbLoad_dbSet (s : DbStore) (k : Str) (e : databaseEntry) (k1 : Str) :
    dbLoad (dbSet s k e) k1 = if k1 = k then some e else dbLoad s k1 := by
  by_cases h : k1 = k
  · subst h
    simp [dbSet, dbLoad]
  · have h2 : ¬(k = k1) := fun hh => h hh.symm
    simp [dbSet, dbLoad, dbLoad_dbDelete, h, h2]

/-! ### Heap lemmas -/

theorem mem_heapPush (h : List ttlHeapData) (x z : ttlHeapData) :
    z ∈ heapPush h x ↔ z = x ∨ z ∈ h := by
  induction h with
  | nil => simp [heapPush]
  | cons y rest ih =>
    by_cases hlt : x.ttl < y.ttl <;> simp [heapPush, hlt, ih] <;> try tauto

theorem heapPush_sorted (h : List ttlHeapData) (x : ttlHeapData)
    (hs : HeapSorted h) : HeapSorted (heapPush h x) := by
  induction h with
  | nil => simp [heapPush, HeapSorted]
  | cons y rest ih =>
    rw [HeapSorted, List.pairwise_cons] at hs
    rw [HeapSorted, heapPush]
    by_cases hlt : x.ttl < y.ttl
    · simp only [hlt, if_pos]
      refine List.pairwise_cons.2 ⟨?_, List.pairwise_cons.2 ⟨hs.1, hs.2⟩⟩
      intro z hz
      rcases List.mem_cons.1 hz with rfl | hz1
      · omega
      · exact le_trans (le_of_lt hlt) (hs.1 z hz1)
    · simp only [hlt, if_neg, if_false]
      refine List.pairwise_cons.2 ⟨?_, ih hs.2⟩
      intro z hz
      rcases (mem_heapPush rest x z).1 hz with rfl | hz1
      · omega
      · exact hs.1 z hz1

/-! ### Decimal formatting and parsing lemmas -/

theorem natDigitsGo_eq (fuel : Nat) :
    ∀ n acc, n ≤ fuel →
      natDigitsGo fuel n acc =
        ((Nat.digits 10 n).map Nat.digitChar).reverse ++ acc := by
  induction fuel with
  | zero =>
    intro n acc hn
    have : n = 0 := Nat.le_zero.1 hn
    subst this
    simp [natDigitsGo]
  | succ fuel ih =>
    intro n acc hn
    match n with
    | 0 => simp [natDigitsGo]
    | k + 1 =>
      rw [natDigitsGo]
      have hdiv : (k + 1) / 10 ≤ fuel := by
        have := Nat.div_lt_self (Nat.succ_pos k) (by norm_num : 1 < 10)
        omega
      rw [ih _ _ hdiv]
      rw [Nat.digits_def' (by norm_num : 1 < 10) (Nat.succ_pos k)]
      simp

theorem natDigits_eq (n : Nat) :
    natDigits n =
      if n = 0 then ['0']
      else ((Nat.digits 10 n).map Nat.digitChar).reverse := by
  by_cases h : n = 0
  · simp [natDigits, h]
  · simp [natDigits, h, natDigitsGo_eq n n [] (le_refl n)]

theorem natDigits_bounds (n : Nat) :
    ∀ c ∈ natDigits n, 48 ≤ c.toNat ∧ c.toNat ≤ 57 := by
  intro c hc
  rw [natDigits_eq] at hc
  by_cases h : n = 0
  · simp [h] at hc
    subst hc
    decide
  · simp only [h, if_neg, if_false, List.mem_reverse, List.mem_map] at hc
    obtain ⟨d, hd, rfl⟩ := hc
    have hlt : d < 10 := Nat.digits_lt_base (by norm_num) hd
    interval_cases d <;> decide

theorem natDigits_ne_nil (n : Nat) : natDigits n ≠ [] := by
  rw [natDigits_eq]
  by_cases h : n = 0
  · simp [h]
  · simp [h, Nat.digits_ne_nil_iff_ne_zero.2 h]

theorem charDigit_digitChar (d : Nat) (hd : d < 10) :
    charDigit (Nat.digitChar d) = some d := by
  interval_cases d <;> decide

theorem goNat_map_digitChar (L : List Nat) :
    ∀ acc, (∀ d ∈ L, d < 10) →
      goNat acc (L.map Nat.digitChar) =
        some (L.foldl (fun a d => a * 10 + d) acc) := by
  induction L with
  | nil => intro acc _; simp [goNat]
  | cons d L ih =>
    intro acc hb
    have hd : d < 10 := hb d (by simp)
    simp only [List.map_cons, goNat, charDigit_digitChar d hd]
    rw [ih _ (fun x hx => hb x (by simp [hx]))]
    simp

theorem foldl_reverse_ofDigits (L : List Nat) :
    ∀ acc : Nat,
      L.reverse.foldl (fun a d => a * 10 + d) acc =
        acc * 10 ^ L.length + Nat.ofDigits 10 L := by
  induction L with
  | nil => intro acc; simp [Nat.ofDigits]
  | cons x xs ih =>
    intro acc
    rw [List.reverse_cons, List.foldl_append, ih, Nat.ofDigits_cons]
    simp [pow_succ]
    ring

theorem parseDigits_natDigits (m : Nat) :
    parseDigits (natDigits m) = some m := by
  by_cases h : m = 0
  · subst h
    decide
  · rw [parseDigits, if_neg (by simp [List.isEmpty_iff, natDigits_ne_nil])]
    rw [natDigits_eq, if_neg h, ← List.map_reverse]
    rw [goNat_map_digitChar _ _
      (fun d hd => Nat.digits_lt_base (by norm_num) (List.mem_reverse.1 hd))]
    rw [foldl_reverse_ofDigits]
    simp [Nat.ofDigits_digits]

theorem parse_format (t : Int) (ht : 0 ≤ t) :
    parseAtoi (formatInt t) = some t := by
  rw [formatInt, if_neg (by omega)]
  obtain ⟨c, cs, hcs⟩ : ∃ c cs, natDigits t.toNat = c :: cs := by
    cases hna : natDigits t.toNat with
    | nil => exact absurd hna (natDigits_ne_nil _)
    | cons c cs => exact ⟨c, cs, rfl⟩
  have hbound := natDigits_bounds t.toNat c (by rw [hcs]; simp)
  rw [hcs, parseAtoi]
  rw [if_neg (by rintro rfl; revert hbound; decide)]
  rw [if_neg (by rintro rfl; revert hbound; decide)]
  rw [← hcs, parseDigits_natDigits]
  simp [Int.toNat_of_nonneg ht]

theorem isToken_formatInt (t : Int) : isToken (formatInt t) := by
  have hdig : ∀ m : Nat, isToken (natDigits m) := by
    intro m c hc
    have := natDigits_bounds m c hc
    rintro rfl
    revert this
    decide
  rw [formatInt]
  by_cases h : t < 0
  · rw [if_pos h]
    intro c hc
    rcases List.mem_cons.1 hc with rfl | hc1
    · decide
    · exact hdig _ c hc1
  · rw [if_neg h]
    exact hdig _

theorem formatInt_ne_neg1 (t : Int) (ht : 0 ≤ t) :
    formatInt t ≠ strNeg1 := by
  rw [formatInt, if_neg (by omega)]
  intro hcontra
  have := natDigits_bounds t.toNat '-' (by rw [hcontra]; simp [strNeg1])
  revert this
  decide

/-! ### Splitting lemmas -/

theorem splitOnSpace_ne_nil (s : Str) : splitOnSpace s ≠ [] := by
  induction s with
  | nil => simp [splitOnSpace]
  | cons c rest ih =>
    rw [splitOnSpace]
    by_cases hc : c = ' '
    · simp [hc]
    · simp only [hc, if_neg, if_false]
      cases hs : splitOnSpace rest with
      | nil => simp
      | cons g gs => simp

theorem splitOnSpace_token_append (a : Str) (ha : isToken a) (r : Str) :
    splitOnSpace (a ++ ' ' :: r) = a :: splitOnSpace r := by
  induction a with
  | nil => simp [splitOnSpace]
  | cons c a1 ih =>
    have hc : c ≠ ' ' := ha c (by simp)
    have ih1 := ih (fun x hx => ha x (by simp [hx]))
    simp only [List.cons_append, splitOnSpace, hc, if_neg, if_false,
      List.append_eq, ih1]

theorem splitOnSpace_token (a : Str) (ha : isToken a) :
    splitOnSpace a = [a] := by
  induction a with
  | nil => simp [splitOnSpace]
  | cons c a1 ih =>
    have hc : c ≠ ' ' := ha c (by simp)
    have ih1 := ih (fun x hx => ha x (by simp [hx]))
    simp only [splitOnSpace, hc, if_neg, if_false, List.append_eq, ih1]

theorem isToken_strPUT : isToken strPUT := by decide

theorem isToken_strDELETE : isToken strDELETE := by decide

theorem split_aofPutLine (k v : Str) (t : Option Int)
    (hk : isToken k) (hv : isToken v) :
    splitOnSpace (aofPutLine k v t) =
      [strPUT, k, v,
        match t with
        | some n => formatInt n
        | none => formatInt (-1)] := by
  unfold aofPutLine
  rw [splitOnSpace_token_append strPUT isToken_strPUT]
  rw [splitOnSpace_token_append k hk]
  rw [splitOnSpace_token_append v hv]
  cases t with
  | some n => rw [splitOnSpace_token _ (isToken_formatInt n)]
  | none => rw [splitOnSpace_token _ (isToken_formatInt (-1))]

theorem split_aofDeleteLine (k : Str) (hk : isToken k) :
    splitOnSpace (aofDeleteLine k) = [strDELETE, k] := by
  unfold aofDeleteLine
  rw [splitOnSpace_token_append strDELETE isToken_strDELETE]
  rw [splitOnSpace_token k hk]

/-! ### Replay lemmas -/

theorem formatInt_neg1_eq : formatInt (-1) = strNeg1 := by decide

theorem strPUT_ne_strDELETE : strPUT ≠ strDELETE := by decide

theorem replayLine_put_some (st : DbStore) (k v : Str) (t : Int)
    (hk : isToken k) (hv : isToken v) (ht : 0 ≤ t) :
    replayLine st (aofPutLine k v (some t)) = dbSet st k ⟨v, some t⟩ := by
  simp [replayLine, split_aofPutLine k v (some t) hk hv,
    formatInt_ne_neg1 t ht, parse_format t ht]

theorem replayLine_put_none (st : DbStore) (k v : Str)
    (hk : isToken k) (hv : isToken v) :
    replayLine st (aofPutLine k v none) = dbSet st k ⟨v, none⟩ := by
  simp [replayLine, split_aofPutLine k v none hk hv, formatInt_neg1_eq]

theorem replayLine_deleteLine (st : DbStore) (k : Str) (hk : isToken k) :
    replayLine st (aofDeleteLine k) = dbDelete st k := by
  have hne : ¬(strDELETE = strPUT) := fun h => strPUT_ne_strDELETE h.symm
  simp [replayLine, split_aofDeleteLine k hk, hne]

/-! ### The AOF produced by a mutation run -/

theorem applyMutation_aof (db : InMemoryDatabase) (m : Mutation) :
    (applyMutation db m).aof = db.aof ++ [lineOf m] := by
  cases m with
  | create id v t now => cases t <;> simp [applyMutation, Create, lineOf]
  | put k v t now => cases t <;> simp [applyMutation, Put, lineOf]
  | del k => simp [applyMutation, Delete, lineOf]

theorem runMutations_aof (S : List Mutation) :
    ∀ db, (runMutations S db).aof = db.aof ++ S.map lineOf := by
  induction S with
  | nil => intro db; simp [runMutations]
  | cons m rest ih =>
    intro db
    have hstep : runMutations (m :: rest) db =
        runMutations rest (applyMutation db m) := rfl
    rw [hstep, ih, applyMutation_aof]
    simp

/-! ### Replay reproduces the store up to expiry clocks -/

theorem storesAgree_applyMutation (db : InMemoryDatabase) (rs : DbStore)
    (m : Mutation) (hag : StoresAgree db.database rs) (hok : mutOk m)
    (hfresh : ∀ id v t now, m = .create id v t now →
      dbLoad db.database id = none) :
    StoresAgree (applyMutation db m).database (replayLine rs (lineOf m)) := by
  cases m with
  | create id v t now =>
    have hfr := hfresh id v t now rfl
    obtain ⟨hid, hv, ht⟩ := hok
    cases t with
    | some t0 =>
      rw [lineOf, replayLine_put_some rs id v t0 hid hv ht]
      intro k
      simp only [applyMutation, Create, hfr, Option.isSome_none,
        Bool.false_eq_true, if_false, if_neg]
      rw [dbLoad_dbSet, dbLoad_dbSet]
      by_cases hk : k = id
      · simp [hk, entryAgrees]
      · simp only [hk, if_neg, if_false]
        exact hag k
    | none =>
      rw [lineOf, replayLine_put_none rs id v hid hv]
      intro k
      simp only [applyMutation, Create, hfr, Option.isSome_none,
        Bool.false_eq_true, if_false, if_neg]
      rw [dbLoad_dbSet, dbLoad_dbSet]
      by_cases hk : k = id
      · simp [hk, entryAgrees]
      · simp only [hk, if_neg, if_false]
        exact hag k
  | put k0 v t now =>
    obtain ⟨hk0, hv, ht⟩ := hok
    cases t with
    | some t0 =>
      rw [lineOf, replayLine_put_some rs k0 v t0 hk0 hv ht]
      intro k
      simp only [applyMutation, Put]
      rw [dbLoad_dbSet, dbLoad_dbSet]
      by_cases hk : k = k0
      · simp [hk, entryAgrees]
      · simp only [hk, if_neg, if_false]
        exact hag k
    | none =>
      rw [lineOf, replayLine_put_none rs k0 v hk0 hv]
      intro k
      simp only [applyMutation, Put]
      rw [dbLoad_dbSet, dbLoad_dbSet]
      by_cases hk : k = k0
      · simp [hk, entryAgrees]
      · simp only [hk, if_neg, if_false]
        exact hag k
  | del k0 =>
    rw [lineOf, replayLine_deleteLine rs k0 hok]
    intro k
    simp only [applyMutation, Delete]
    rw [dbLoad_dbDelete, dbLoad_dbDelete]
    by_cases hk : k = k0
    · simp [hk, entryAgrees]
    · simp only [hk, if_neg, if_false]
      exact hag k

theorem storesAgree_runMutations (S : List Mutation) :
    ∀ db rs, StoresAgree db.database rs → (∀ m ∈ S, mutOk m) →
      createsFresh db S = true →
      StoresAgree (runMutations S db).database
        (replay (S.map lineOf) rs) := by
  induction S with
  | nil =>
    intro db rs hag _ _
    simpa [runMutations, replay] using hag
  | cons m rest ih =>
    intro db rs hag hok hfresh
    rw [createsFresh, Bool.and_eq_true] at hfresh
    have hstep := storesAgree_applyMutation db rs m hag (hok m (by simp))
      (by
        intro id v t now hm
        subst hm
        simpa [freshOk, Option.isNone_iff_eq_none] using hfresh.1)
    exact ih (applyMutation db m) (replayLine rs (lineOf m)) hstep
      (fun m1 hm1 => hok m1 (by simp [hm1])) hfresh.2

/-- From per-key agreement up to expiry clocks, `Get` and `GetTTL` answers
coincide under a per-key clock shift. -/
theorem agree_get_shift (db1 db2 : InMemoryDatabase) (k : Str)
    (hag : entryAgrees (dbLoad db1.database k) (dbLoad db2.database k)) :
    ∃ w : Int, ∀ q : Int,
      Get k q db1 = Get k (q - w) db2 ∧
      GetTTL k q db1 = GetTTL k (q - w) db2 := by
  cases h1 : dbLoad db1.database k with
  | none =>
    cases h2 : dbLoad db2.database k with
    | none => exact ⟨0, fun q => by simp [Get, GetTTL, h1, h2]⟩
    | some e2 =>
      rw [h1, h2] at hag
      exact absurd hag (by simp [entryAgrees])
  | some e1 =>
    cases h2 : dbLoad db2.database k with
    | none =>
      rw [h1, h2] at hag
      exact absurd hag (by simp [entryAgrees])
    | some e2 =>
      rw [h1, h2] at hag
      obtain ⟨hval, hsome⟩ := hag
      cases ht1 : e1.ttl with
      | none =>
        have ht2 : e2.ttl = none := by
          rw [ht1] at hsome
          exact Option.not_isSome_iff_eq_none.1 (by simp [← hsome])
        exact ⟨0, fun q => by simp [Get, GetTTL, h1, h2, ht1, ht2, hval]⟩
      | some a =>
        obtain ⟨b, ht2⟩ : ∃ b, e2.ttl = some b := by
          rw [ht1] at hsome
          cases hb : e2.ttl with
          | none => rw [hb] at hsome; simp at hsome
          | some b => exact ⟨b, rfl⟩
        refine ⟨a - b, fun q => ⟨?_, ?_⟩⟩
        · simp only [Get, h1, h2, ht1, ht2]
          by_cases hlt : a > q
          · rw [if_pos hlt, if_pos (by omega), hval]
          · rw [if_neg hlt, if_neg (by omega)]
        · simp only [GetTTL, h1, h2, ht1, ht2]
          by_cases hle : a ≤ q
          · rw [if_pos hle, if_pos (by omega)]
          · rw [if_neg hle, if_neg (by omega)]
            have harith : a - q = b - (q - (a - b)) := by omega
            rw [harith]

/-! ### Drain-loop lemmas -/

theorem aofDeleteLine_inj (k k1 : Str) :
    aofDeleteLine k = aofDeleteLine k1 ↔ k = k1 := by
  simp [aofDeleteLine]

theorem poppedEntries_nil (now : Int) : poppedEntries now [] = [] := rfl

theorem poppedEntries_cons_live (now : Int) (x : ttlHeapData)
    (rest : List ttlHeapData) (hx : ¬x.ttl ≤ now) :
    poppedEntries now (x :: rest) = [] := by
  simp [poppedEntries, List.takeWhile, expiredPred, hx]

theorem poppedEntries_cons_expired (now : Int) (x : ttlHeapData)
    (rest : List ttlHeapData) (hx : x.ttl ≤ now) :
    poppedEntries now (x :: rest) = x :: poppedEntries now rest := by
  simp [poppedEntries, List.takeWhile, expiredPred, hx]

theorem poppedEntries_sound (now : Int) (h : List ttlHeapData) :
    ∀ x ∈ poppedEntries now h, x.ttl ≤ now := by
  induction h with
  | nil => simp [poppedEntries_nil]
  | cons y rest ih =>
    by_cases hy : y.ttl ≤ now
    · rw [poppedEntries_cons_expired now y rest hy]
      intro x hx
      rcases List.mem_cons.1 hx with rfl | hx1
      · exact hy
      · exact ih x hx1
    · rw [poppedEntries_cons_live now y rest hy]
      simp

theorem poppedEntries_complete (now : Int) (h : List ttlHeapData)
    (hs : HeapSorted h) :
    ∀ x ∈ h, x.ttl ≤ now → x ∈ poppedEntries now h := by
  induction h with
  | nil => simp
  | cons y rest ih =>
    rw [HeapSorted, List.pairwise_cons] at hs
    intro x hx hxt
    rcases List.mem_cons.1 hx with rfl | hx1
    · rw [poppedEntries_cons_expired now x rest hxt]
      simp
    · have hy : y.ttl ≤ now := le_trans (hs.1 x hx1) hxt
      rw [poppedEntries_cons_expired now y rest hy]
      exact List.mem_cons.2 (Or.inr (ih hs.2 x hx1 hxt))

theorem ttlCleanupDrain_heap (now : Int) :
    ∀ (h : List ttlHeapData) (s : DbStore) (a : List Str),
      (ttlCleanupDrain now h s a).1 = h.dropWhile (expiredPred now) := by
  intro h
  induction h with
  | nil => intro s a; simp [ttlCleanupDrain]
  | cons x rest ih =>
    intro s a
    by_cases hx : x.ttl - now > 0
    · rw [ttlCleanupDrain, if_pos hx]
      have : expiredPred now x = false := by
        simp [expiredPred]
        omega
      simp [List.dropWhile, this]
    · rw [ttlCleanupDrain, if_neg hx]
      have hex : expiredPred now x = true := by
        simp [expiredPred]
        omega
      have hdrop : (x :: rest).dropWhile (expiredPred now) =
          rest.dropWhile (expiredPred now) := by
        simp [List.dropWhile, hex]
      rw [hdrop]
      cases hload : dbLoad s x.key with
      | some e =>
        dsimp only
        by_cases hmatch : e.ttl = some x.ttl
        · rw [if_pos hmatch]
          exact ih _ _
        · rw [if_neg hmatch]
          exact ih _ _
      | none => exact ih _ _

theorem drainDeletes_nil (now : Int) (s : DbStore) (k : Str) :
    drainDeletes now [] s k = false := by
  cases hload : dbLoad s k <;> simp [drainDeletes, hload, poppedEntries_nil]

theorem drainDeletes_head_live (now : Int) (x : ttlHeapData)
    (rest : List ttlHeapData) (s : DbStore) (k : Str)
    (hx : ¬x.ttl ≤ now) : drainDeletes now (x :: rest) s k = false := by
  cases hload : dbLoad s k <;>
    simp [drainDeletes, hload, poppedEntries_cons_live now x rest hx]

theorem ttlCleanupDrain_store_aof (now : Int) :
    ∀ (h : List ttlHeapData) (s : DbStore) (a : List Str),
      (∀ k, drainDeletes now h s k = true →
        dbLoad (ttlCleanupDrain now h s a).2.1 k = none) ∧
      (∀ k, drainDeletes now h s k = false →
        dbLoad (ttlCleanupDrain now h s a).2.1 k = dbLoad s k) ∧
      (∀ k, List.count (aofDeleteLine k) (ttlCleanupDrain now h s a).2.2 =
        List.count (aofDeleteLine k) a +
          (if drainDeletes now h s k then 1 else 0)) := by
  intro h
  induction h with
  | nil =>
    intro s a
    refine ⟨?_, ?_, ?_⟩
    · intro k hd
      rw [drainDeletes_nil] at hd
      exact absurd hd (by simp)
    · intro k _
      simp [ttlCleanupDrain]
    · intro k
      simp [ttlCleanupDrain, drainDeletes_nil]
  | cons x rest ih =>
    intro s a
    by_cases hx : x.ttl - now > 0
    · have hlive : ¬x.ttl ≤ now := by omega
      rw [ttlCleanupDrain, if_pos hx]
      refine ⟨?_, ?_, ?_⟩
      · intro k hd
        rw [drainDeletes_head_live now x rest s k hlive] at hd
        exact absurd hd (by simp)
      · intro k _
        rfl
      · intro k
        simp [drainDeletes_head_live now x rest s k hlive]
    · have hexp : x.ttl ≤ now := by omega
      have hpop := poppedEntries_cons_expired now x rest hexp
      rw [ttlCleanupDrain, if_neg hx]
      cases hload : dbLoad s x.key with
      | some e =>
        dsimp only
        by_cases hmatch : e.ttl = some x.ttl
        · rw [if_pos hmatch]
          have hsub1 : ∀ k, k ≠ x.key →
              drainDeletes now rest (dbDelete s x.key) k =
                drainDeletes now (x :: rest) s k := by
            intro k hk
            have hload2 : dbLoad (dbDelete s x.key) k = dbLoad s k := by
              rw [dbLoad_dbDelete, if_neg hk]
            rw [drainDeletes, drainDeletes, hload2, hpop]
            cases dbLoad s k with
            | none => rfl
            | some e1 =>
              have hhead : (decide (x.key = k) &&
                  decide (e1.ttl = some x.ttl)) = false := by
                simp
                intro hxk
                exact absurd hxk.symm hk
              simp only [List.any_cons, hhead, Bool.false_or]
          have hsub2 : drainDeletes now (x :: rest) s x.key = true := by
            rw [drainDeletes, hload, hpop]
            simp [hmatch]
          have hsub3 : drainDeletes now rest (dbDelete s x.key) x.key
              = false := by
            rw [drainDeletes, dbLoad_dbDelete, if_pos rfl]
          obtain ⟨ih1, ih2, ih3⟩ :=
            ih (dbDelete s x.key) (a ++ [aofDeleteLine x.key])
          refine ⟨?_, ?_, ?_⟩
          · intro k hd
            by_cases hk : k = x.key
            · subst hk
              rw [ih2 x.key hsub3, dbLoad_dbDelete, if_pos rfl]
            · have hd2 : drainDeletes now rest (dbDelete s x.key) k
                  = true := by
                rw [hsub1 k hk]
                exact hd
              exact ih1 k hd2
          · intro k hd
            by_cases hk : k = x.key
            · subst hk
              rw [hsub2] at hd
              exact absurd hd (by simp)
            · rw [ih2 k (by rw [hsub1 k hk]; exact hd),
                dbLoad_dbDelete, if_neg hk]
          · intro k
            rw [ih3 k, List.count_append]
            by_cases hk : k = x.key
            · subst hk
              rw [hsub2, hsub3]
              simp
            · have hcount :
                  List.count (aofDeleteLine k) [aofDeleteLine x.key] = 0 := by
                simp [List.count_singleton]
                intro hcontra
                exact hk (((aofDeleteLine_inj x.key k).1 hcontra).symm)
              rw [hcount, hsub1 k hk]
              omega
        · rw [if_neg hmatch]
          have hsub : ∀ k, drainDeletes now (x :: rest) s k =
              drainDeletes now rest s k := by
            intro k
            rw [drainDeletes, drainDeletes, hpop]
            cases hload1 : dbLoad s k with
            | none => rfl
            | some e1 =>
              have hhead : (decide (x.key = k) &&
                  decide (e1.ttl = some x.ttl)) = false := by
                by_cases hxk : x.key = k
                · have he : e1 = e :=
                    Option.some.inj (hload1.symm.trans (hxk ▸ hload))
                  subst he
                  simp [hmatch]
                · simp [hxk]
              simp only [List.any_cons, hhead, Bool.false_or]
          obtain ⟨ih1, ih2, ih3⟩ := ih s a
          exact ⟨fun k hd => ih1 k (by rw [← hsub k]; exact hd),
            fun k hd => ih2 k (by rw [← hsub k]; exact hd),
            fun k => by rw [ih3 k, hsub k]⟩
      | none =>
        have hsub : ∀ k, drainDeletes now (x :: rest) s k =
            drainDeletes now rest s k := by
          intro k
          rw [drainDeletes, drainDeletes, hpop]
          cases hload1 : dbLoad s k with
          | none => rfl
          | some e1 =>
            have hhead : (decide (x.key = k) &&
                decide (e1.ttl = some x.ttl)) = false := by
              by_cases hxk : x.key = k
              · rw [← hxk, hload] at hload1
                exact absurd hload1 (by simp)
              · simp [hxk]
            simp only [List.any_cons, hhead, Bool.false_or]
        obtain ⟨ih1, ih2, ih3⟩ := ih s a
        exact ⟨fun k hd => ih1 k (by rw [← hsub k]; exact hd),
          fun k hd => ih2 k (by rw [← hsub k]; exact hd),
          fun k => by rw [ih3 k, hsub k]⟩

theorem drainDeletes_nonexpiring (now : Int) (h : List ttlHeapData)
    (s : DbStore) (k : Str) (v : Str)
    (hload : dbLoad s k = some ⟨v, none⟩) :
    drainDeletes now h s k = false := by
  rw [drainDeletes, hload]
  simp

/-! ### Claim theorems -/

/-- C1: For every key and state, Get returns (value, present=true) iff the
key is in the Store and its entry has no expiry or expiry strictly greater
than now; Get reports absent when the key is missing or the expiry is ≤ now
(before any eviction), and an entry written by Create or Put with ttl=0
(absolute expiry = now) fails every Get at any instant ≥ now. -/
theorem claim_C1 : ∀ (db : InMemoryDatabase) (k : Str) (now : Int),
    (∀ v, Get k now db = (v, true) ↔
      ∃ e, dbLoad db.database k = some e ∧ e.value = v ∧
        (e.ttl = none ∨ ∃ x, e.ttl = some x ∧ now < x)) ∧
    ((dbLoad db.database k = none ∨
      ∃ e x, dbLoad db.database k = some e ∧ e.ttl = some x ∧ x ≤ now) →
      (Get k now db).2 = false) ∧
    (∀ id v0 (db1 : InMemoryDatabase) now1,
      dbLoad db1.database id = none → now ≤ now1 →
      Get id now1 (Create id v0 (some 0) now db1).2.2 = ([], false)) ∧
    (∀ k1 v0 (db1 : InMemoryDatabase) now1, now ≤ now1 →
      Get k1 now1 (Put k1 v0 (some 0) now db1).2 = ([], false)) := by
  intro db k now
  refine ⟨?_, ?_, ?_, ?_⟩
  · intro v
    constructor
    · intro hget
      cases hload : dbLoad db.database k with
      | none => simp [Get, hload] at hget
      | some e =>
        cases ht : e.ttl with
        | none =>
          refine ⟨e, rfl, ?_, Or.inl ht⟩
          simp [Get, hload, ht] at hget
          exact hget
        | some x =>
          by_cases hlt : x > now
          · refine ⟨e, rfl, ?_, Or.inr ⟨x, ht, hlt⟩⟩
            simp [Get, hload, ht, hlt] at hget
            exact hget
          · simp [Get, hload, ht, hlt] at hget
    · rintro ⟨e, hload, hval, hok⟩
      rcases hok with ht | ⟨x, ht, hlt⟩
      · simp [Get, hload, ht, hval]
      · simp [Get, hload, ht, hlt, hval]
  · rintro (hload | ⟨e, x, hload, ht, hle⟩)
    · simp [Get, hload]
    · simp only [Get, hload, ht]
      rw [if_neg (by omega)]
  · intro id v0 db1 now1 hfresh hle
    have hloaded : (dbLoad db1.database id).isSome = false := by
      simp [hfresh]
    have hng : ¬now1 < now := by omega
    simp [Create, Get, hloaded, dbLoad_dbSet, hng]
  · intro k1 v0 db1 now1 hle
    have hng : ¬now1 < now := by omega
    simp [Put, Get, dbLoad_dbSet, hng]

/-- Witness for C1 at concrete inputs: a database holding key `k` with
value `v` and expiry 7 read at instant 5 (valid) and a ttl=0 Create whose
entry immediately fails Get. -/
theorem claim_C1_witness :
    (dbLoad (emptyDB).database ['u'] = none ∧ (3 : Int) ≤ 5) ∧
    Get ['u'] 5 (Create ['u'] ['w'] (some 0) 3 emptyDB).2.2 = ([], false) :=
  ⟨⟨by decide, by decide⟩,
    (claim_C1 emptyDB ['u'] 3).2.2.1 ['u'] ['w'] emptyDB 5
      (by decide) (by decide)⟩

/-- C2: GetTTL returns (remaining = expiry − now, present=true) for a key
with an expiry strictly in the future, (absent, true) for a key with no
expiry, and (absent, false) when the key is missing or its expiry is
≤ now. -/
theorem claim_C2 : ∀ (db : InMemoryDatabase) (k : Str) (now : Int),
    (∀ e x, dbLoad db.database k = some e → e.ttl = some x → now < x →
      GetTTL k now db = (some (x - now), true)) ∧
    (∀ e, dbLoad db.database k = some e → e.ttl = none →
      GetTTL k now db = (none, true)) ∧
    (dbLoad db.database k = none → GetTTL k now db = (none, false)) ∧
    (∀ e x, dbLoad db.database k = some e → e.ttl = some x → x ≤ now →
      GetTTL k now db = (none, false)) := by
  intro db k now
  refine ⟨?_, ?_, ?_, ?_⟩
  · intro e x hload ht hlt
    have : ¬(x ≤ now) := by omega
    simp [GetTTL, hload, ht, this]
  · intro e hload ht
    simp [GetTTL, hload, ht]
  · intro hload
    simp [GetTTL, hload]
  · intro e x hload ht hle
    simp [GetTTL, hload, ht, hle]

/-- Witness for C2: a key with expiry 9 read at instant 4 yields remaining
5 and present=true. -/
theorem claim_C2_witness :
    (dbLoad [(['k'], databaseEntry.mk ['v'] (some 9))] ['k'] =
      some (databaseEntry.mk ['v'] (some 9)) ∧ (4 : Int) < 9) ∧
    GetTTL ['k'] 4 ⟨[(['k'], databaseEntry.mk ['v'] (some 9))], [], []⟩ =
      (some 5, true) :=
  ⟨⟨by decide, by decide⟩,
    (claim_C2 ⟨[(['k'], databaseEntry.mk ['v'] (some 9))], [], []⟩
        ['k'] 4).1
      (databaseEntry.mk ['v'] (some 9)) 9 (by decide) (by decide)
      (by decide)⟩

/-- C3: On a heap satisfying the min-heap ordering, the drain step pops
exactly the entries whose expiry is ≤ now (the earliest first), and a popped
(key, expiry) pair deletes the key and appends one DELETE record iff the
Store holds that key with exactly that expiry; every other popped entry is
stale and leaves the Store untouched. -/
theorem claim_C3 : ∀ (now : Int) (h : List ttlHeapData) (s : DbStore)
    (a : List Str), HeapSorted h →
    ((ttlCleanupDrain now h s a).1 = h.dropWhile (expiredPred now)) ∧
    (∀ x ∈ h, x ∈ poppedEntries now h ↔ x.ttl ≤ now) ∧
    (∀ k, drainDeletes now h s k = true →
      dbLoad (ttlCleanupDrain now h s a).2.1 k = none) ∧
    (∀ k, drainDeletes now h s k = false →
      dbLoad (ttlCleanupDrain now h s a).2.1 k = dbLoad s k) ∧
    (∀ k, List.count (aofDeleteLine k) (ttlCleanupDrain now h s a).2.2 =
      List.count (aofDeleteLine k) a +
        (if drainDeletes now h s k then 1 else 0)) := by
  intro now h s a hs
  obtain ⟨h1, h2, h3⟩ := ttlCleanupDrain_store_aof now h s a
  exact ⟨ttlCleanupDrain_heap now h s a,
    fun x hx => ⟨fun hp => poppedEntries_sound now h x hp,
      fun ht => poppedEntries_complete now h hs x hx ht⟩,
    h1, h2, h3⟩

/-- Witness for C3: heap [(a,5),(b,7),(c,20)] drained at instant 10 over a
store where a matches expiry 5 and b has the newer expiry 9 (stale heap
entry): a is deleted with one DELETE record, b survives, c stays queued. -/
theorem claim_C3_witness :
    HeapSorted [⟨['a'], 5⟩, ⟨['b'], 7⟩, ⟨['c'], 20⟩] ∧
    (((ttlCleanupDrain 10 [⟨['a'], 5⟩, ⟨['b'], 7⟩, ⟨['c'], 20⟩]
        [(['a'], ⟨['x'], some 5⟩), (['b'], ⟨['y'], some 9⟩)] []).1 =
      List.dropWhile (expiredPred 10)
        [⟨['a'], 5⟩, ⟨['b'], 7⟩, ⟨['c'], 20⟩]) ∧
    (∀ x ∈ [(⟨['a'], 5⟩ : ttlHeapData), ⟨['b'], 7⟩, ⟨['c'], 20⟩],
      x ∈ poppedEntries 10 [⟨['a'], 5⟩, ⟨['b'], 7⟩, ⟨['c'], 20⟩] ↔
        x.ttl ≤ 10) ∧
    (∀ k, drainDeletes 10 [⟨['a'], 5⟩, ⟨['b'], 7⟩, ⟨['c'], 20⟩]
        [(['a'], ⟨['x'], some 5⟩), (['b'], ⟨['y'], some 9⟩)] k = true →
      dbLoad (ttlCleanupDrain 10 [⟨['a'], 5⟩, ⟨['b'], 7⟩, ⟨['c'], 20⟩]
        [(['a'], ⟨['x'], some 5⟩), (['b'], ⟨['y'], some 9⟩)] []).2.1 k =
        none) ∧
    (∀ k, drainDeletes 10 [⟨['a'], 5⟩, ⟨['b'], 7⟩, ⟨['c'], 20⟩]
        [(['a'], ⟨['x'], some 5⟩), (['b'], ⟨['y'], some 9⟩)] k = false →
      dbLoad (ttlCleanupDrain 10 [⟨['a'], 5⟩, ⟨['b'], 7⟩, ⟨['c'], 20⟩]
        [(['a'], ⟨['x'], some 5⟩), (['b'], ⟨['y'], some 9⟩)] []).2.1 k =
        dbLoad [(['a'], ⟨['x'], some 5⟩), (['b'], ⟨['y'], some 9⟩)] k) ∧
    (∀ k, List.count (aofDeleteLine k)
        (ttlCleanupDrain 10 [⟨['a'], 5⟩, ⟨['b'], 7⟩, ⟨['c'], 20⟩]
          [(['a'], ⟨['x'], some 5⟩), (['b'], ⟨['y'], some 9⟩)] []).2.2 =
      List.count (aofDeleteLine k) [] +
        (if drainDeletes 10 [⟨['a'], 5⟩, ⟨['b'], 7⟩, ⟨['c'], 20⟩]
          [(['a'], ⟨['x'], some 5⟩), (['b'], ⟨['y'], some 9⟩)] k
         then 1 else 0))) :=
  ⟨by decide,
    claim_C3 10 [⟨['a'], 5⟩, ⟨['b'], 7⟩, ⟨['c'], 20⟩]
      [(['a'], ⟨['x'], some 5⟩), (['b'], ⟨['y'], some 9⟩)] [] (by decide)⟩

/-- C4: Put without a ttl on a key that had an expiry replaces the entry by
a non-expiring one, which the drain step never deletes at any later instant
(the leftover heap entry is stale); Put with a ttl replaces the prior
expiry with t + now. -/
theorem claim_C4 : ∀ (db : InMemoryDatabase) (k v : Str) (now : Int)
    (e : databaseEntry) (x : Int),
    dbLoad db.database k = some e → e.ttl = some x →
    (dbLoad (Put k v none now db).2.database k =
      some (databaseEntry.mk v none)) ∧
    (∀ (now1 : Int) (a : List Str),
      dbLoad (ttlCleanupDrain now1 (Put k v none now db).2.ttl
        (Put k v none now db).2.database a).2.1 k =
        some (databaseEntry.mk v none)) ∧
    (∀ t : Int, dbLoad (Put k v (some t) now db).2.database k =
      some (databaseEntry.mk v (some (t + now)))) := by
  intro db k v now e x hload ht
  have hset : dbLoad (Put k v none now db).2.database k =
      some (databaseEntry.mk v none) := by
    simp [Put, dbLoad_dbSet]
  refine ⟨hset, ?_, ?_⟩
  · intro now1 a
    obtain ⟨_, h2, _⟩ := ttlCleanupDrain_store_aof now1
      (Put k v none now db).2.ttl (Put k v none now db).2.database a
    rw [h2 k (drainDeletes_nonexpiring now1 _ _ k v hset), hset]
  · intro t
    simp [Put, dbLoad_dbSet]

/-- Witness for C4: key k with expiry 3 is overwritten by Put without ttl;
the stale heap entry (k,3) never evicts it, e.g. when drained at instant
100. -/
theorem claim_C4_witness :
    (dbLoad [(['k'], ⟨['o'], some 3⟩)] ['k'] =
      some (databaseEntry.mk ['o'] (some 3)) ∧
      (databaseEntry.mk ['o'] (some 3)).ttl = some 3) ∧
    ((dbLoad (Put ['k'] ['v'] none 7
        ⟨[(['k'], ⟨['o'], some 3⟩)], [⟨['k'], 3⟩], []⟩).2.database ['k'] =
      some (databaseEntry.mk ['v'] none)) ∧
    (∀ (now1 : Int) (a : List Str),
      dbLoad (ttlCleanupDrain now1
        (Put ['k'] ['v'] none 7
          ⟨[(['k'], ⟨['o'], some 3⟩)], [⟨['k'], 3⟩], []⟩).2.ttl
        (Put ['k'] ['v'] none 7
          ⟨[(['k'], ⟨['o'], some 3⟩)], [⟨['k'], 3⟩], []⟩).2.database
        a).2.1 ['k'] = some (databaseEntry.mk ['v'] none)) ∧
    (∀ t : Int, dbLoad (Put ['k'] ['v'] (some t) 7
        ⟨[(['k'], ⟨['o'], some 3⟩)], [⟨['k'], 3⟩], []⟩).2.database ['k'] =
      some (databaseEntry.mk ['v'] (some (t + 7))))) :=
  ⟨⟨by decide, by decide⟩,
    claim_C4 ⟨[(['k'], ⟨['o'], some 3⟩)], [⟨['k'], 3⟩], []⟩ ['k'] ['v'] 7
      (databaseEntry.mk ['o'] (some 3)) 3 (by decide) (by decide)⟩

/-- C5 counterexample: replaying the line `PUT k v 5` into an empty
database stores the entry with absolute expiry 5 but pushes nothing into
the ExpiryIndex — the replay loop of WithInitialData only calls `store` and
`delete`, so the claim that the entry "is pushed into the index" fails. -/
theorem claim_C5_counterexample :
    dbLoad (withInitialDataAof
        [aofPutLine ['k'] ['v'] (some 5)]).database ['k'] =
      some (databaseEntry.mk ['v'] (some 5)) ∧
    (withInitialDataAof [aofPutLine ['k'] ['v'] (some 5)]).ttl = [] := by
  decide

/-- C5 amended: startup loading in AOF mode replays each line into the
Store only: a well-formed `PUT key value N` line with N ≠ -1 stores the
entry with absolute expiry N, `PUT key value -1` stores it without expiry,
`DELETE key` removes the key, malformed lines leave the state unchanged,
and the ExpiryIndex is never touched (nothing is pushed). -/
theorem claim_C5 : ∀ (st : DbStore) (k v ts : Str),
    isToken k → isToken v → isToken ts →
    (∀ n : Int, ts ≠ strNeg1 → parseAtoi ts = some n →
      replayLine st (strPUT ++ ' ' :: (k ++ ' ' :: (v ++ ' ' :: ts))) =
        dbSet st k (databaseEntry.mk v (some n))) ∧
    (replayLine st (strPUT ++ ' ' :: (k ++ ' ' :: (v ++ ' ' :: strNeg1))) =
      dbSet st k (databaseEntry.mk v none)) ∧
    (replayLine st (aofDeleteLine k) = dbDelete st k) ∧
    (∀ line, wellFormedAofLine line = false → replayLine st line = st) ∧
    (∀ lines, (withInitialDataAof lines).ttl = []) := by
  intro st k v ts hk hv hts
  have hsplit : ∀ (w : Str), isToken w →
      splitOnSpace (strPUT ++ ' ' :: (k ++ ' ' :: (v ++ ' ' :: w))) =
        [strPUT, k, v, w] := by
    intro w hw
    rw [splitOnSpace_token_append strPUT isToken_strPUT,
      splitOnSpace_token_append k hk,
      splitOnSpace_token_append v hv,
      splitOnSpace_token w hw]
  refine ⟨?_, ?_, replayLine_deleteLine st k hk, ?_, fun _ => rfl⟩
  · intro n hne hparse
    rw [replayLine, hsplit ts hts]
    simp [hne, hparse]
  · rw [replayLine, hsplit strNeg1 (by decide)]
    simp
  · intro line hwf
    rw [wellFormedAofLine] at hwf
    rw [replayLine]
    cases hargs : splitOnSpace line with
    | nil => rfl
    | cons cmd rest =>
      rw [hargs] at hwf
      dsimp only at hwf ⊢
      by_cases hput : cmd = strPUT
      · subst hput
        rw [if_pos rfl] at hwf ⊢
        match rest with
        | [] => rfl
        | [_] => rfl
        | [_, _] => rfl
        | _ :: _ :: _ :: _ :: _ => rfl
        | [key1, v1, ts1] =>
          dsimp only at hwf ⊢
          simp only [Bool.or_eq_false_iff, decide_eq_false_iff_not] at hwf
          obtain ⟨hne, hparse⟩ := hwf
          have hpnone : parseAtoi ts1 = none :=
            Option.not_isSome_iff_eq_none.1 (by simp [hparse])
          rw [if_neg hne, hpnone]
      · rw [if_neg hput] at hwf ⊢
        by_cases hdel : cmd = strDELETE
        · subst hdel
          rw [if_pos rfl] at hwf ⊢
          match rest with
          | [] => rfl
          | [_] => simp at hwf
          | _ :: _ :: _ => rfl
        · rw [if_neg hdel]

/-- Witness for C5: replaying `PUT k v 12` and `PUT k v -1` and `DELETE k`
against a concrete store behaves as stated. -/
theorem claim_C5_witness :
    (isToken ['k'] ∧ isToken ['v'] ∧ isToken ['1', '2'] ∧
      (['1', '2'] : Str) ≠ strNeg1 ∧ parseAtoi ['1', '2'] = some 12) ∧
    replayLine [] (strPUT ++ ' ' :: (['k'] ++ ' ' :: (['v'] ++ ' ' ::
      (['1', '2'] : Str)))) =
      dbSet [] ['k'] (databaseEntry.mk ['v'] (some 12)) :=
  ⟨⟨by decide, by decide, by decide, by decide, by decide⟩,
    (claim_C5 [] ['k'] ['v'] ['1', '2'] (by decide) (by decide)
      (by decide)).1 12 (by decide) (by decide)⟩

/-- C6 counterexample: the claim quantifies over every mutation sequence,
but a Put whose value contains a space produces an AOF line that splits
into five fields and is skipped on replay: the key is present in the
original state yet absent after replay at every shifted clock. -/
theorem claim_C6_counterexample :
    Get ['k'] 0
      (runMutations [Mutation.put ['k'] ['a', ' ', 'b'] none 0] emptyDB) =
      (['a', ' ', 'b'], true) ∧
    ∀ w : Int, Get ['k'] (0 - w)
      (withInitialDataAof
        (runMutations [Mutation.put ['k'] ['a', ' ', 'b'] none 0]
          emptyDB).aof) = ([], false) :=
  ⟨by decide, fun _ => rfl⟩

/-- C6 amended: for every sequence of Create/Put/Delete mutations whose
keys and values are space-free tokens, whose supplied ttls are nonnegative,
and whose Creates never collide, replaying the produced AOF into a fresh
empty database reproduces Get and GetTTL on every key up to a per-key clock
shift (the AOF records the relative ttl, replay reads it as absolute). -/
theorem claim_C6 (S : List Mutation) (hok : ∀ m ∈ S, mutOk m)
    (hfresh : createsFresh emptyDB S = true) :
    ∀ k : Str, ∃ w : Int, ∀ q : Int,
      Get k q (runMutations S emptyDB) =
        Get k (q - w) (withInitialDataAof (runMutations S emptyDB).aof) ∧
      GetTTL k q (runMutations S emptyDB) =
        GetTTL k (q - w)
          (withInitialDataAof (runMutations S emptyDB).aof) := by
  intro k
  have haof : (runMutations S emptyDB).aof = S.map lineOf := by
    simpa [emptyDB] using runMutations_aof S emptyDB
  have hag := storesAgree_runMutations S emptyDB []
    (fun k1 => by simp [emptyDB, dbLoad, entryAgrees]) hok hfresh
  rw [haof]
  exact agree_get_shift (runMutations S emptyDB)
    ⟨replay (S.map lineOf) [], [], []⟩ k (hag k)

/-- Witness for C6: a concrete sequence (Put with ttl, Delete, Put without
ttl, Create with ttl 0) satisfying the validation and freshness
hypotheses. -/
theorem claim_C6_witness :
    (∀ m ∈ [Mutation.put ['k'] ['v'] (some 5) 100, Mutation.del ['k'],
        Mutation.put ['a'] ['b'] none 0,
        Mutation.create ['u'] ['w'] (some 0) 50], mutOk m) ∧
    createsFresh emptyDB
      [Mutation.put ['k'] ['v'] (some 5) 100, Mutation.del ['k'],
        Mutation.put ['a'] ['b'] none 0,
        Mutation.create ['u'] ['w'] (some 0) 50] = true ∧
    ∀ k : Str, ∃ w : Int, ∀ q : Int,
      Get k q (runMutations
        [Mutation.put ['k'] ['v'] (some 5) 100, Mutation.del ['k'],
          Mutation.put ['a'] ['b'] none 0,
          Mutation.create ['u'] ['w'] (some 0) 50] emptyDB) =
        Get k (q - w) (withInitialDataAof (runMutations
          [Mutation.put ['k'] ['v'] (some 5) 100, Mutation.del ['k'],
            Mutation.put ['a'] ['b'] none 0,
            Mutation.create ['u'] ['w'] (some 0) 50] emptyDB).aof) ∧
      GetTTL k q (runMutations
        [Mutation.put ['k'] ['v'] (some 5) 100, Mutation.del ['k'],
          Mutation.put ['a'] ['b'] none 0,
          Mutation.create ['u'] ['w'] (some 0) 50] emptyDB) =
        GetTTL k (q - w) (withInitialDataAof (runMutations
          [Mutation.put ['k'] ['v'] (some 5) 100, Mutation.del ['k'],
            Mutation.put ['a'] ['b'] none 0,
            Mutation.create ['u'] ['w'] (some 0) 50] emptyDB).aof) :=
  ⟨by decide, by decide,
    claim_C6
      [Mutation.put ['k'] ['v'] (some 5) 100, Mutation.del ['k'],
        Mutation.put ['a'] ['b'] none 0,
        Mutation.create ['u'] ['w'] (some 0) 50]
      (by decide) (by decide)⟩

/-- C7 counterexample: a Create whose generated id collides with an
existing key reports created=false and leaves the Store and ExpiryIndex
unchanged, yet still appends a PUT line to the AOF; likewise Delete of an
absent key appends a DELETE line.  This refutes the claim that a record is
appended only when the mutation succeeds. -/
theorem claim_C7_counterexample :
    (Create ['i'] ['n'] none 0
      ⟨[(['i'], ⟨['o'], none⟩)], [], []⟩).1 = false ∧
    (Create ['i'] ['n'] none 0
      ⟨[(['i'], ⟨['o'], none⟩)], [], []⟩).2.2.aof =
      [aofPutLine ['i'] ['n'] none] ∧
    (Delete ['z'] emptyDB).1 = false ∧
    (Delete ['z'] emptyDB).2.aof = [aofDeleteLine ['z']] := by
  decide

/-- C7 amended: Create always appends exactly one PUT line, even on a UUID
collision, where created=false and the Store and ExpiryIndex are unchanged;
Delete always appends a DELETE line, even when the key did not exist, and
returns existed-before iff the key was in the Store. -/
theorem claim_C7 : ∀ (db : InMemoryDatabase) (id v : Str) (t : Option Int)
    (now : Int) (k : Str),
    ((Create id v t now db).2.2.aof = db.aof ++ [aofPutLine id v t]) ∧
    ((Create id v t now db).1 = false →
      (Create id v t now db).2.2.database = db.database ∧
      (Create id v t now db).2.2.ttl = db.ttl) ∧
    ((Delete k db).2.aof = db.aof ++ [aofDeleteLine k]) ∧
    ((Delete k db).1 = true ↔ (dbLoad db.database k).isSome = true) := by
  intro db id v t now k
  have hdel1 : (Delete k db).2.aof = db.aof ++ [aofDeleteLine k] := by
    simp [Delete]
  have hdel2 : (Delete k db).1 = true ↔
      (dbLoad db.database k).isSome = true := by
    simp [Delete]
  cases t with
  | some t0 =>
    refine ⟨by simp [Create], ?_, hdel1, hdel2⟩
    intro hfalse
    have hl : (dbLoad db.database id).isSome = true := by
      simpa [Create] using hfalse
    constructor <;> simp [Create, hl]
  | none =>
    refine ⟨by simp [Create], ?_, hdel1, hdel2⟩
    intro hfalse
    have hl : (dbLoad db.database id).isSome = true := by
      simpa [Create] using hfalse
    constructor <;> simp [Create, hl]

/-- Witness for C7: collision of Create on an existing key at a concrete
state. -/
theorem claim_C7_witness :
    ((Create ['i'] ['n'] (some 4) 0
      ⟨[(['i'], ⟨['o'], none⟩)], [], []⟩).1 = false) ∧
    ((Create ['i'] ['n'] (some 4) 0
        ⟨[(['i'], ⟨['o'], none⟩)], [], []⟩).2.2.database =
      [(['i'], ⟨['o'], none⟩)] ∧
    (Create ['i'] ['n'] (some 4) 0
        ⟨[(['i'], ⟨['o'], none⟩)], [], []⟩).2.2.ttl = []) :=
  ⟨by decide,
    (claim_C7 ⟨[(['i'], ⟨['o'], none⟩)], [], []⟩ ['i'] ['n'] (some 4) 0
      ['z']).2.1 (by decide)⟩

/-- The body written by writeJSONError always has the envelope shape
recognized by isErrorEnvelope. -/
theorem isErrorEnvelope_errorEnvelope (msg : Str) :
    isErrorEnvelope (errorEnvelope msg) = true := by
  rw [isErrorEnvelope, errorEnvelope]
  simp only [Bool.and_eq_true, decide_eq_true_eq]
  refine ⟨⟨?_, ?_⟩, ?_⟩
  · simp
  · rw [List.append_assoc]
    exact List.take_left' (by decide)
  · have hlen3 : ((['{', '"', 'e', 'r', 'r', 'o', 'r', '"', ':', '"'] ++
        msg) ++ ['"', '}', '\n']).length - 3 =
        (['{', '"', 'e', 'r', 'r', 'o', 'r', '"', ':', '"'] ++
          msg).length := by
      simp
    rw [hlen3]
    exact List.drop_left _ _

/-- C8 counterexample: DELETE of a missing key answers 404, but the body is
the literal `{}` written by deleteHandler, not the `{"error":...}` envelope
of writeJSONError. -/
theorem claim_C8_counterexample :
    (deleteHandler ['n', 'o', 'p', 'e'] emptyDB).1.status = 404 ∧
    (deleteHandler ['n', 'o', 'p', 'e'] emptyDB).1.body = emptyJson ∧
    isErrorEnvelope (deleteHandler ['n', 'o', 'p', 'e'] emptyDB).1.body =
      false := by
  decide

/-- C8 amended: for every request DELETE /v1/keys/{key} where the key does
not exist, the handler responds 404 with body `{}` (no error envelope). -/
theorem claim_C8 : ∀ (db : InMemoryDatabase) (k : Str),
    dbLoad db.database k = none →
    (deleteHandler k db).1.status = 404 ∧
    (deleteHandler k db).1.body = emptyJson ∧
    isErrorEnvelope (deleteHandler k db).1.body = false := by
  intro db k hload
  have hsome : (dbLoad db.database k).isSome = false := by simp [hload]
  exact ⟨by simp [deleteHandler, Delete, hsome], rfl,
    (by decide : isErrorEnvelope emptyJson = false)⟩

/-- Witness for C8: deleting the key `nope` from the empty database. -/
theorem claim_C8_witness :
    dbLoad emptyDB.database ['n', 'o', 'p', 'e'] = none ∧
    ((deleteHandler ['n', 'o', 'p', 'e'] emptyDB).1.status = 404 ∧
    (deleteHandler ['n', 'o', 'p', 'e'] emptyDB).1.body = emptyJson ∧
    isErrorEnvelope (deleteHandler ['n', 'o', 'p', 'e'] emptyDB).1.body =
      false) :=
  ⟨by decide, claim_C8 emptyDB ['n', 'o', 'p', 'e'] (by decide)⟩

/-- C9: publishing a non-empty message on a channel appends it to every
mailbox of that channel holding fewer than 10 messages, leaves full
mailboxes unchanged (the message is dropped for that subscriber only),
leaves all other channels untouched, and answers 200 with body `{}` even
when the channel has no subscribers. -/
theorem claim_C9 : ∀ (b : Broker) (ch s : Str), s ≠ [] →
    ((publishHandler ch s b).1.status = 200) ∧
    ((publishHandler ch s b).1.body = emptyJson) ∧
    (∀ (i : Nat) (mb : Mailbox), (b ch)[i]? = some mb →
      ((publishHandler ch s b).2 ch)[i]? =
        some (if mb.length < 10 then mb ++ [s] else mb)) ∧
    (∀ ch1, ch1 ≠ ch → (publishHandler ch s b).2 ch1 = b ch1) ∧
    (b ch = [] → (publishHandler ch s b).2 ch = []) := by
  intro b ch s hs
  refine ⟨?_, ?_, ?_, ?_, ?_⟩
  · simp [publishHandler, hs]
  · simp [publishHandler, hs]
  · intro i mb hget
    simp [publishHandler, hs, publish, List.getElem?_map, hget]
  · intro ch1 hne
    simp [publishHandler, hs, publish, hne]
  · intro hnil
    simp [publishHandler, hs, publish, hnil]

/-- Witness for C9: channel `t` with one mailbox holding one message and
one full mailbox of 10 messages; publishing `p` appends to the first and
drops at the second. -/
theorem claim_C9_witness :
    (['p'] : Str) ≠ [] ∧
    (((publishHandler ['t'] ['p'] (fun ch1 =>
        if ch1 = ['t'] then [[['m']], List.replicate 10 ['x']]
        else [])).1.status = 200) ∧
    ((publishHandler ['t'] ['p'] (fun ch1 =>
        if ch1 = ['t'] then [[['m']], List.replicate 10 ['x']]
        else [])).1.body = emptyJson) ∧
    (∀ (i : Nat) (mb : Mailbox), ((fun ch1 =>
        if ch1 = ['t'] then [[['m']], List.replicate 10 ['x']]
        else []) ['t'])[i]? = some mb →
      ((publishHandler ['t'] ['p'] (fun ch1 =>
          if ch1 = ['t'] then [[['m']], List.replicate 10 ['x']]
          else [])).2 ['t'])[i]? =
        some (if mb.length < 10 then mb ++ [['p']] else mb)) ∧
    (∀ ch1, ch1 ≠ ['t'] →
      (publishHandler ['t'] ['p'] (fun ch1 =>
          if ch1 = ['t'] then [[['m']], List.replicate 10 ['x']]
          else [])).2 ch1 =
        (fun ch1 => if ch1 = ['t'] then [[['m']], List.replicate 10 ['x']]
          else []) ch1) ∧
    ((fun ch1 => if ch1 = ['t'] then [[['m']], List.replicate 10 ['x']]
        else []) ['t'] = [] →
      (publishHandler ['t'] ['p'] (fun ch1 =>
          if ch1 = ['t'] then [[['m']], List.replicate 10 ['x']]
          else [])).2 ['t'] = [])) :=
  ⟨by decide,
    claim_C9 (fun ch1 =>
      if ch1 = ['t'] then [[['m']], List.replicate 10 ['x']] else [])
      ['t'] ['p'] (by decide)⟩

/-- C10: for a key whose Store entry has an expiry ≤ now but has not been
evicted yet, Put and Delete report existed-before=true (HTTP 200 rather
than 201/404) while Get and GetTTL simultaneously report the key absent:
existence for Put/Delete is bare Store membership, ignoring expiry. -/
theorem claim_C10 : ∀ (db : InMemoryDatabase) (k v : Str) (t : Option Int)
    (now : Int) (e : databaseEntry) (x : Int),
    dbLoad db.database k = some e → e.ttl = some x → x ≤ now → v ≠ [] →
    ((Put k v t now db).1 = true) ∧
    ((Delete k db).1 = true) ∧
    (Get k now db = ([], false)) ∧
    (GetTTL k now db = (none, false)) ∧
    ((putHandler k v t now db).1.status = 200) ∧
    ((deleteHandler k db).1.status = 200) := by
  intro db k v t now e x hload ht hle hv
  have hsome : (dbLoad db.database k).isSome = true := by simp [hload]
  have hput1 : (Put k v t now db).1 = true := by
    cases t <;> simp [Put, hsome]
  refine ⟨hput1, by simp [Delete, hsome], ?_, ?_, ?_,
    by simp [deleteHandler, Delete, hsome]⟩
  · simp only [Get, hload, ht]
    rw [if_neg (by omega)]
  · simp [GetTTL, hload, ht, hle]
  · simp [putHandler, hv, hput1]

/-- Witness for C10: key k with expiry 3 queried and overwritten at instant
5, before the scheduler has evicted it. -/
theorem claim_C10_witness :
    (dbLoad [(['k'], ⟨['o'], some 3⟩)] ['k'] =
        some (databaseEntry.mk ['o'] (some 3)) ∧
      (databaseEntry.mk ['o'] (some 3)).ttl = some 3 ∧ (3 : Int) ≤ 5 ∧
      (['v'] : Str) ≠ []) ∧
    (((Put ['k'] ['v'] none 5
        ⟨[(['k'], ⟨['o'], some 3⟩)], [], []⟩).1 = true) ∧
    ((Delete ['k'] ⟨[(['k'], ⟨['o'], some 3⟩)], [], []⟩).1 = true) ∧
    (Get ['k'] 5 ⟨[(['k'], ⟨['o'], some 3⟩)], [], []⟩ = ([], false)) ∧
    (GetTTL ['k'] 5 ⟨[(['k'], ⟨['o'], some 3⟩)], [], []⟩ =
      (none, false)) ∧
    ((putHandler ['k'] ['v'] none 5
        ⟨[(['k'], ⟨['o'], some 3⟩)], [], []⟩).1.status = 200) ∧
    ((deleteHandler ['k']
        ⟨[(['k'], ⟨['o'], some 3⟩)], [], []⟩).1.status = 200)) :=
  ⟨⟨by decide, by decide, by decide, by decide⟩,
    claim_C10 ⟨[(['k'], ⟨['o'], some 3⟩)], [], []⟩ ['k'] ['v'] none 5
      (databaseEntry.mk ['o'] (some 3)) 3 (by decide) (by decide)
      (by decide) (by decide)⟩

end InMemoryDB
